import Mathlib

/-!
# Verification of the Data_Table filter/query engine

Shallow embedding of the filter-expression parser/composer
(`src/components/data-table/TableToolbar.tsx`), the nested-path resolver
(`src/components/data-table/DataTable.tsx`), and the client-side
filter/sort pipeline (`src/hooks/useDataTable.ts`) of the Data_Table
repository, together with proofs about the specified properties.

JavaScript strings are embedded as `List Char`; JSON-like record values as
the inductive `JVal` (numeric literals are modelled at integer precision,
which is exact for every integer-valued number below 2^53).
-/

open scoped List

namespace DataTable

/-- JS `String.prototype.trimStart`: drop leading whitespace. -/
def trimLeft (s : List Char) : List Char := s.dropWhile Char.isWhitespace

/-- JS `String.prototype.trimEnd`: drop trailing whitespace. -/
def trimRight : List Char → List Char
  | [] => []
  | c :: t =>
    match trimRight t with
    | [] => if c.isWhitespace then [] else [c]
    | r => c :: r

/-- JS `String.prototype.trim`: drop whitespace at both ends. -/
def jtrim (s : List Char) : List Char := trimRight (trimLeft s)

/-- JS `String.prototype.includes`: substring containment. -/
def jcontains (h n : List Char) : Bool :=
  if n.isPrefixOf h then true
  else
    match h with
    | [] => false
    | _ :: t => jcontains t n

/-- JS `String.prototype.indexOf` for a pattern string: index of the first
occurrence, `none` when the pattern does not occur (JS returns `-1`). -/
def findSub (h n : List Char) : Option Nat :=
  if n.isPrefixOf h then some 0
  else
    match h with
    | [] => none
    | _ :: t => (findSub t n).map (· + 1)

/-- JS `String.prototype.split` with a one-character separator
(`"".split('.')` is `[""]`, matching JS). -/
def jsplitOn (c : Char) : List Char → List (List Char)
  | [] => [[]]
  | x :: t =>
    match jsplitOn c t with
    | [] => if x = c then [[], []] else [[x]]
    | h :: r => if x = c then [] :: h :: r else (x :: h) :: r

/-- JS `String.prototype.toLowerCase` (ASCII-faithful). -/
def jlower (s : List Char) : List Char := s.map Char.toLower

/-- The filter operators of the toolbar UI (`type Operator` in
`TableToolbar.tsx`). -/
inductive Operator where
  | contains | eq | neq | gt | gte | lt | lte | between
deriving DecidableEq, Repr

/-- A per-column filter descriptor (`{ op; v1; v2 }` in `TableToolbar.tsx`). -/
structure FilterUI where
  op : Operator
  v1 : List Char
  v2 : List Char
deriving DecidableEq, Repr

/-- The prefix-operator table of `parseFilterExpression`, in source order:
`['>=', '<=', '!=', '==', '>', '<', '=']` with the `switch` mapping. -/
def opsList : List (List Char × Operator) :=
  [ (['>', '='], .gte), (['<', '='], .lte), (['!', '='], .neq),
    (['=', '='], .eq), (['>'], .gt), (['<'], .lt), (['='], .eq) ]

/-- The `for (const op of ops)` loop of `parseFilterExpression`: first
prefix match wins, operand is the remainder after the prefix, trimmed. -/
def tryOps : List (List Char × Operator) → List Char → Option FilterUI
  | [], _ => none
  | (p, o) :: rest, t =>
    if p.isPrefixOf t then some ⟨o, jtrim (t.drop p.length), []⟩
    else tryOps rest t

/-- `parseFilterExpression` from `TableToolbar.tsx`: empty string →
`contains` with empty operand; a string containing `..` → `between` split
at the first occurrence; otherwise the first matching prefix operator;
otherwise `contains` on the trimmed string. -/
def parseFilterExpression (expr : List Char) : FilterUI :=
  if expr.isEmpty then ⟨.contains, [], []⟩
  else
    let trimmed := jtrim expr
    match findSub trimmed ['.', '.'] with
    | some i => ⟨.between, jtrim (trimmed.take i), jtrim (trimmed.drop (i + 2))⟩
    | none =>
      match tryOps opsList trimmed with
      | some f => f
      | none => ⟨.contains, trimmed, []⟩

/-- `composeFilterExpression` from `TableToolbar.tsx`. -/
def composeFilterExpression (ui : FilterUI) : List Char :=
  if ui.v1.isEmpty && (decide (ui.op ≠ .between) || ui.v2.isEmpty) then []
  else
    match ui.op with
    | .contains => ui.v1
    | .eq => '=' :: '=' :: ui.v1
    | .neq => '!' :: '=' :: ui.v1
    | .gt => '>' :: ui.v1
    | .gte => '>' :: '=' :: ui.v1
    | .lt => '<' :: ui.v1
    | .lte => '<' :: '=' :: ui.v1
    | .between =>
      if !ui.v1.isEmpty && !ui.v2.isEmpty then ui.v1 ++ '.' :: '.' :: ui.v2
      else []

/-! ## Lemmas about trimming -/

lemma trimRight_cons (c : Char) (t : List Char) :
    trimRight (c :: t) =
      match trimRight t with
      | [] => if c.isWhitespace then [] else [c]
      | r => c :: r := rfl

lemma trimLeft_cons_of_not_ws {c : Char} (hc : ¬ c.isWhitespace) (t : List Char) :
    trimLeft (c :: t) = c :: t := by
  simp [trimLeft, List.dropWhile_cons, hc]

lemma trimRight_cons_of_not_ws {c : Char} (hc : ¬ c.isWhitespace) (t : List Char) :
    trimRight (c :: t) = c :: trimRight t := by
  rw [trimRight_cons]
  cases htr : trimRight t with
  | nil => simp [hc]
  | cons x xs => rfl

lemma trimRight_prefix_self (t : List Char) : trimRight t <+: t := by
  induction t with
  | nil => exact List.nil_prefix
  | cons c t ih =>
    rw [trimRight_cons]
    cases htr : trimRight t with
    | nil =>
      by_cases hc : c.isWhitespace
      · simp [hc]
      · simp [hc]
    | cons x xs =>
      rw [htr] at ih
      exact List.cons_prefix_cons.mpr ⟨rfl, ih⟩

lemma trimLeft_suffix (s : List Char) : trimLeft s <:+ s :=
  List.dropWhile_suffix _

lemma jtrim_within (s : List Char) : jtrim s <:+: s :=
  ((trimRight_prefix_self (trimLeft s)).isInfix).trans (trimLeft_suffix s).isInfix

lemma trimLeft_idem (s : List Char) : trimLeft (trimLeft s) = trimLeft s := by
  induction s with
  | nil => rfl
  | cons c t ih =>
    by_cases hc : c.isWhitespace
    · simpa [trimLeft, List.dropWhile_cons, hc] using ih
    · simp [trimLeft, List.dropWhile_cons, hc]

lemma trimRight_idem (t : List Char) : trimRight (trimRight t) = trimRight t := by
  induction t with
  | nil => rfl
  | cons c t ih =>
    rw [trimRight_cons]
    cases htr : trimRight t with
    | nil =>
      by_cases hc : c.isWhitespace
      · simp [hc, trimRight]
      · simp [hc, trimRight]
    | cons x xs =>
      rw [htr] at ih
      rw [trimRight_cons, ih]

lemma trimLeft_trimRight_comm (s : List Char) :
    trimLeft (trimRight s) = trimRight (trimLeft s) := by
  induction s with
  | nil => rfl
  | cons c t ih =>
    by_cases hc : c.isWhitespace
    · have hl : trimLeft (c :: t) = trimLeft t := by
        simp [trimLeft, List.dropWhile_cons, hc]
      rw [trimRight_cons, hl, ← ih]
      cases htr : trimRight t with
      | nil => simp [hc]
      | cons x xs => simp [trimLeft, List.dropWhile_cons, hc]
    · have hl : trimLeft (c :: t) = c :: t := by
        simp [trimLeft, List.dropWhile_cons, hc]
      rw [trimRight_cons, hl, trimRight_cons]
      cases htr : trimRight t with
      | nil => simp [hc, trimLeft, List.dropWhile_cons]
      | cons x xs => simp [trimLeft, List.dropWhile_cons, hc]

lemma jtrim_trimRight (r : List Char) : jtrim (trimRight r) = jtrim r := by
  unfold jtrim
  rw [trimLeft_trimRight_comm, trimRight_idem]

lemma jtrim_eq_self {s : List Char} (h1 : trimLeft s = s) (h2 : trimRight s = s) :
    jtrim s = s := by
  unfold jtrim; rw [h1, h2]

lemma trimLeft_head_not_ws {c : Char} {t : List Char}
    (hv : trimLeft (c :: t) = c :: t) : ¬ c.isWhitespace := by
  intro hc
  have h1 : trimLeft (c :: t) = trimLeft t := by
    simp [trimLeft, List.dropWhile_cons, hc]
  have h2 : (trimLeft t).length ≤ t.length := (trimLeft_suffix t).length_le
  rw [hv] at h1
  have := congrArg List.length h1
  simp at this
  omega

lemma trimLeft_append_of_fix {v : List Char} (hv : trimLeft v = v) (hne : v ≠ [])
    (u : List Char) : trimLeft (v ++ u) = v ++ u := by
  cases v with
  | nil => exact absurd rfl hne
  | cons c t =>
    have hc := trimLeft_head_not_ws hv
    simp [trimLeft, List.dropWhile_cons, hc]

lemma trimRight_append_of_fix {w : List Char} (hw : trimRight w = w) (hne : w ≠ [])
    (u : List Char) : trimRight (u ++ w) = u ++ w := by
  induction u with
  | nil => simpa using hw
  | cons c u' ih =>
    have hne' : u' ++ w ≠ [] := by
      intro h
      exact hne (List.append_eq_nil.mp h).2
    rw [List.cons_append, trimRight_cons, ih]
    cases h : u' ++ w with
    | nil => exact absurd h hne'
    | cons x xs => rfl

/-! ## Lemmas about substring search -/

lemma prefix_drop_of_findSub {h n : List Char} {i : Nat}
    (hf : findSub h n = some i) : n <+: h.drop i := by
  induction h generalizing i with
  | nil =>
    unfold findSub at hf
    split at hf
    · next hp =>
      cases hf
      simpa using hp
    · cases hf
  | cons c t ih =>
    unfold findSub at hf
    split at hf
    · next hp =>
      cases hf
      simpa using hp
    · next hp =>
      simp only [Option.map_eq_some'] at hf
      obtain ⟨i', hi', rfl⟩ := hf
      simpa using ih hi'

lemma findSub_min {h n : List Char} {i : Nat}
    (hf : findSub h n = some i) : ∀ j, j < i → ¬ n <+: h.drop j := by
  induction h generalizing i with
  | nil =>
    unfold findSub at hf
    split at hf
    · cases hf; omega
    · cases hf
  | cons c t ih =>
    unfold findSub at hf
    split at hf
    · cases hf; omega
    · next hp =>
      simp only [Option.map_eq_some'] at hf
      obtain ⟨i', hi', rfl⟩ := hf
      intro j hj
      cases j with
      | zero =>
        simpa [List.isPrefixOf_iff_prefix] using hp
      | succ j' =>
        simpa using ih hi' j' (by omega)

lemma findSub_isSome_of_prefix_drop {h n : List Char} {j : Nat}
    (hp : n <+: h.drop j) : (findSub h n).isSome := by
  induction h generalizing j with
  | nil =>
    have : n = [] := by simpa using hp
    subst this
    simp [findSub]
  | cons c t ih =>
    unfold findSub
    split
    · simp
    · next hnp =>
      cases j with
      | zero =>
        exact absurd hp (by simpa [List.isPrefixOf_iff_prefix] using hnp)
      | succ j' =>
        have := ih (j := j') (by simpa using hp)
        simpa using this

lemma infix_of_findSub_some {h n : List Char} {i : Nat}
    (hf : findSub h n = some i) : n <:+: h :=
  (prefix_drop_of_findSub hf).isInfix.trans (List.drop_suffix i h).isInfix

lemma findSub_eq_none_of_not_within {h n : List Char} (hni : ¬ n <:+: h) :
    findSub h n = none := by
  cases hf : findSub h n with
  | none => rfl
  | some i => exact absurd (infix_of_findSub_some hf) hni

lemma findSub_isSome_of_within {h n : List Char} (hi : n <:+: h) :
    (findSub h n).isSome := by
  obtain ⟨pre, suf, rfl⟩ := hi
  have hp : n <+: (pre ++ n ++ suf).drop pre.length := by
    rw [List.append_assoc, List.drop_left]
    exact ⟨suf, rfl⟩
  exact findSub_isSome_of_prefix_drop hp

lemma dots_infix_cons {c : Char} {v : List Char} (hc : c ≠ '.') :
    ['.', '.'] <:+: (c :: v) ↔ ['.', '.'] <:+: v := by
  constructor
  · intro hi
    rcases List.infix_cons_iff.mp hi with hp | hi'
    · rw [List.cons_prefix_cons] at hp
      exact absurd hp.1.symm hc
    · exact hi'
  · intro hi
    exact hi.trans ⟨[c], [], by simp⟩

/-! ## Claims about the expression parser -/

/-- C1: a raw per-column filter string with no `..` that begins with `==`
parses to operator `eq` with operand the remainder after the two-character
prefix, trimmed — never to the one-character operator `=` with an operand
beginning with `=`.  The prefix operators are encoded in `opsList` in the
source's exact order `>=`, `<=`, `!=`, `==`, `>`, `<`, `=`, and `tryOps`
takes the first match. -/
theorem parse_eqeq_prefix_eq (s : List Char)
    (hdots : ¬ ['.', '.'] <:+: s) (hpre : ['=', '='] <+: s) :
    parseFilterExpression s = ⟨.eq, jtrim (s.drop 2), []⟩ := by
  obtain ⟨r, rfl⟩ := hpre
  have hsc : (['=', '='] ++ r) = '=' :: '=' :: r := rfl
  rw [hsc] at hdots ⊢
  have hws : ¬ ('=' : Char).isWhitespace := by decide
  have htrim : jtrim ('=' :: '=' :: r) = '=' :: '=' :: trimRight r := by
    unfold jtrim
    rw [trimLeft_cons_of_not_ws hws, trimRight_cons_of_not_ws hws,
      trimRight_cons_of_not_ws hws]
  have hfind : findSub ('=' :: '=' :: trimRight r) ['.', '.'] = none := by
    apply findSub_eq_none_of_not_within
    intro hi
    rw [← htrim] at hi
    exact hdots (hi.trans (jtrim_within _))
  simp only [parseFilterExpression, List.isEmpty_cons, Bool.false_eq_true,
    if_false, htrim, hfind]
  simp +decide only [tryOps, opsList, List.isPrefixOf, List.cons.injEq]
  simp [jtrim_trimRight]

/-- C1 witness at the concrete input `==5`. -/
theorem parse_eqeq_prefix_eq_witness :
    parseFilterExpression ['=', '=', '5'] = ⟨.eq, jtrim (['=', '=', '5'].drop 2), []⟩ :=
  parse_eqeq_prefix_eq ['=', '=', '5'] (by decide) (by decide)

/-- C2: a raw filter string whose trimmed form contains `..` parses to
`between`, split at the first occurrence of `..` (`findSub` returns the
least index), with each side trimmed — with priority over the prefix
operators and the `contains` default. -/
theorem parse_range_between (s : List Char)
    (h : ['.', '.'] <:+: jtrim s) :
    ∃ i, findSub (jtrim s) ['.', '.'] = some i ∧
      (∀ j, j < i → ¬ ['.', '.'] <+: (jtrim s).drop j) ∧
      parseFilterExpression s =
        ⟨.between, jtrim ((jtrim s).take i), jtrim ((jtrim s).drop (i + 2))⟩ := by
  have hsome := findSub_isSome_of_within h
  obtain ⟨i, hi⟩ := Option.isSome_iff_exists.mp hsome
  refine ⟨i, hi, findSub_min hi, ?_⟩
  have hne : s ≠ [] := by
    rintro rfl
    simp [jtrim, trimLeft, trimRight] at h
  simp only [parseFilterExpression, hi]
  rw [if_neg (by simpa [List.isEmpty_iff] using hne)]

/-- C2 witness at the concrete input `1..5`. -/
theorem parse_range_between_witness :
    ∃ i, findSub (jtrim ['1', '.', '.', '5']) ['.', '.'] = some i ∧
      (∀ j, j < i → ¬ ['.', '.'] <+: (jtrim ['1', '.', '.', '5']).drop j) ∧
      parseFilterExpression ['1', '.', '.', '5'] =
        ⟨.between, jtrim ((jtrim ['1', '.', '.', '5']).take i),
          jtrim ((jtrim ['1', '.', '.', '5']).drop (i + 2))⟩ :=
  parse_range_between ['1', '.', '.', '5'] (by decide)

/-- C3 counterexample: composing a `between` descriptor with exactly one
empty bound yields the empty expression — the predicate *is* dropped
(the empty expression re-parses as an empty `contains`, not as a
one-sided range). -/
theorem compose_between_one_empty_dropped :
    composeFilterExpression ⟨.between, ['1'], []⟩ = [] ∧
    parseFilterExpression (composeFilterExpression ⟨.between, ['1'], []⟩) =
      ⟨.contains, [], []⟩ := by decide

/-- C3 amended: parsing does preserve an empty range bound (an expression
beginning with `..` parses to `between` with empty first operand), but
`composeFilterExpression` maps every `between` descriptor having at least
one empty bound to the empty expression, dropping the predicate. -/
theorem between_empty_bound_amended :
    (∀ v : List Char,
      parseFilterExpression ('.' :: '.' :: v) = ⟨.between, [], jtrim v⟩) ∧
    (∀ ui : FilterUI, ui.op = .between → (ui.v1 = [] ∨ ui.v2 = []) →
      composeFilterExpression ui = []) := by
  constructor
  · intro v
    have hws : ¬ ('.' : Char).isWhitespace := by decide
    have htrim : jtrim ('.' :: '.' :: v) = '.' :: '.' :: trimRight v := by
      unfold jtrim
      rw [trimLeft_cons_of_not_ws hws, trimRight_cons_of_not_ws hws,
        trimRight_cons_of_not_ws hws]
    have hfind : findSub ('.' :: '.' :: trimRight v) ['.', '.'] = some 0 := by
      unfold findSub
      rw [if_pos (by simp [List.isPrefixOf])]
    simp only [parseFilterExpression, List.isEmpty_cons, Bool.false_eq_true,
      if_false, htrim, hfind]
    show (⟨.between, jtrim [], jtrim (trimRight v)⟩ : FilterUI) = ⟨.between, [], jtrim v⟩
    rw [jtrim_trimRight]
    rfl
  · rintro ⟨op, v1, v2⟩ hop hempty
    dsimp only at hop
    subst hop
    rcases hempty with h | h <;> (dsimp only at h; subst h) <;>
      simp +decide [composeFilterExpression]

/-- C3 amended witness at concrete inputs `..5` and `{between, 1, ε}`. -/
theorem between_empty_bound_amended_witness :
    parseFilterExpression ['.', '.', '5'] = ⟨.between, [], jtrim ['5']⟩ ∧
    composeFilterExpression ⟨.between, [], ['9']⟩ = [] :=
  ⟨between_empty_bound_amended.1 ['5'],
   between_empty_bound_amended.2 ⟨.between, [], ['9']⟩ rfl (Or.inl rfl)⟩

/-! ## Helpers for the parse/compose round trip -/

lemma tryOps_eq_none {l : List (List Char × Operator)} {t : List Char}
    (h : ∀ p ∈ l, ¬ p.1 <+: t) : tryOps l t = none := by
  induction l with
  | nil => rfl
  | cons p rest ih =>
    unfold tryOps
    rw [if_neg]
    · exact ih fun q hq => h q (List.mem_cons_of_mem p hq)
    · simpa [List.isPrefixOf_iff_prefix] using h p (List.mem_cons_self p rest)

lemma findSub_eq_some_iff {h n : List Char} {i : Nat} :
    findSub h n = some i ↔
      (n <+: h.drop i ∧ ∀ j, j < i → ¬ n <+: h.drop j) := by
  constructor
  · intro hf
    exact ⟨prefix_drop_of_findSub hf, findSub_min hf⟩
  · rintro ⟨hp, hmin⟩
    obtain ⟨i', hi'⟩ := Option.isSome_iff_exists.mp (findSub_isSome_of_prefix_drop hp)
    have hp' := prefix_drop_of_findSub hi'
    rcases Nat.lt_trichotomy i i' with hlt | heq | hgt
    · exact absurd hp (findSub_min hi' i hlt)
    · rw [hi', heq]
    · exact absurd hp' (hmin i' hgt)

lemma parse_nonempty (t : List Char) (hne : t ≠ [])
    (hfind : findSub (jtrim t) ['.', '.'] = none) :
    parseFilterExpression t =
      ((tryOps opsList (jtrim t)).getD ⟨.contains, jtrim t, []⟩) := by
  simp only [parseFilterExpression, hfind]
  rw [if_neg (by simpa [List.isEmpty_iff] using hne)]
  cases tryOps opsList (jtrim t) <;> rfl

/-- C10 counterexample: the descriptor `{between, "1.", "5"}` satisfies all
of the claim's hypotheses (operands non-empty, trimmed, free of `..`, not
beginning with a prefix operator), yet composing gives `1...5`, whose first
`..` occurrence splits as `{between, "1", ".5"}` — not the original. -/
theorem parse_compose_roundtrip_counterexample :
    (['1', '.'] ≠ [] ∧ jtrim ['1', '.'] = ['1', '.'] ∧
      ¬ ['.', '.'] <:+: ['1', '.'] ∧ (∀ p ∈ opsList, ¬ p.1 <+: ['1', '.']) ∧
      ['5'] ≠ [] ∧ jtrim ['5'] = ['5'] ∧ ¬ ['.', '.'] <:+: ['5'] ∧
      (∀ p ∈ opsList, ¬ p.1 <+: ['5'])) ∧
    parseFilterExpression (composeFilterExpression ⟨.between, ['1', '.'], ['5']⟩)
      ≠ ⟨.between, ['1', '.'], ['5']⟩ := by decide

/-- C10 amended: `parseFilterExpression ∘ composeFilterExpression` is the
identity on descriptors whose operands are non-empty, trimmed, free of
`..` and of leading prefix operators, provided additionally (for
`between`) that `v1` does not end with `.` — the condition the
counterexample shows to be necessary — and (for the other operators) that
`v2` is empty, as the UI produces. -/
theorem parse_compose_roundtrip (ui : FilterUI)
    (h1 : ui.v1 ≠ [])
    (h2 : trimLeft ui.v1 = ui.v1) (h3 : trimRight ui.v1 = ui.v1)
    (h4 : ¬ ['.', '.'] <:+: ui.v1)
    (h5 : ∀ p ∈ opsList, ¬ p.1 <+: ui.v1)
    (hbet : ui.op = .between →
      ui.v2 ≠ [] ∧ trimLeft ui.v2 = ui.v2 ∧ trimRight ui.v2 = ui.v2 ∧
        ¬ ['.', '.'] <:+: ui.v2 ∧ ¬ ['.'] <:+ ui.v1)
    (hnb : ui.op ≠ .between → ui.v2 = []) :
    parseFilterExpression (composeFilterExpression ui) = ui := by
  obtain ⟨op, v1, v2⟩ := ui
  dsimp only at h1 h2 h3 h4 h5 hbet hnb ⊢
  have hjv1 : jtrim v1 = v1 := jtrim_eq_self h2 h3
  have hv1e : v1.isEmpty = false := by
    cases v1 with
    | nil => exact absurd rfl h1
    | cons _ _ => rfl
  have heqp : ¬ (['='] : List Char) <+: v1 := h5 (['='], .eq) (by simp [opsList])
  have heqb : (['='] : List Char).isPrefixOf v1 = false := by
    rw [Bool.eq_false_iff]
    intro hx
    rw [List.isPrefixOf_iff_prefix] at hx
    exact heqp hx
  cases op with
  | contains =>
    obtain rfl : v2 = [] := hnb (by simp)
    have hcomp : composeFilterExpression ⟨.contains, v1, []⟩ = v1 := by
      simp [composeFilterExpression, hv1e]
    rw [hcomp, parse_nonempty v1 h1
      (findSub_eq_none_of_not_within (by rw [hjv1]; exact h4)), hjv1,
      tryOps_eq_none h5]
    rfl
  | eq =>
    obtain rfl : v2 = [] := hnb (by simp)
    have hcomp : composeFilterExpression ⟨.eq, v1, []⟩ = '=' :: '=' :: v1 := by
      simp [composeFilterExpression, hv1e]
    have hjt : jtrim ('=' :: '=' :: v1) = '=' :: '=' :: v1 := by
      unfold jtrim
      rw [trimLeft_cons_of_not_ws (by decide), trimRight_cons_of_not_ws (by decide),
        trimRight_cons_of_not_ws (by decide), h3]
    have hfind : findSub (jtrim ('=' :: '=' :: v1)) ['.', '.'] = none := by
      apply findSub_eq_none_of_not_within
      rw [hjt, dots_infix_cons (by decide), dots_infix_cons (by decide)]
      exact h4
    rw [hcomp, parse_nonempty _ (by simp) hfind, hjt]
    simp +decide [tryOps, opsList, List.isPrefixOf, hjv1]
  | neq =>
    obtain rfl : v2 = [] := hnb (by simp)
    have hcomp : composeFilterExpression ⟨.neq, v1, []⟩ = '!' :: '=' :: v1 := by
      simp [composeFilterExpression, hv1e]
    have hjt : jtrim ('!' :: '=' :: v1) = '!' :: '=' :: v1 := by
      unfold jtrim
      rw [trimLeft_cons_of_not_ws (by decide), trimRight_cons_of_not_ws (by decide),
        trimRight_cons_of_not_ws (by decide), h3]
    have hfind : findSub (jtrim ('!' :: '=' :: v1)) ['.', '.'] = none := by
      apply findSub_eq_none_of_not_within
      rw [hjt, dots_infix_cons (by decide), dots_infix_cons (by decide)]
      exact h4
    rw [hcomp, parse_nonempty _ (by simp) hfind, hjt]
    simp +decide [tryOps, opsList, List.isPrefixOf, hjv1]
  | gt =>
    obtain rfl : v2 = [] := hnb (by simp)
    have hcomp : composeFilterExpression ⟨.gt, v1, []⟩ = '>' :: v1 := by
      simp [composeFilterExpression, hv1e]
    have hjt : jtrim ('>' :: v1) = '>' :: v1 := by
      unfold jtrim
      rw [trimLeft_cons_of_not_ws (by decide), trimRight_cons_of_not_ws (by decide), h3]
    have hfind : findSub (jtrim ('>' :: v1)) ['.', '.'] = none := by
      apply findSub_eq_none_of_not_within
      rw [hjt, dots_infix_cons (by decide)]
      exact h4
    rw [hcomp, parse_nonempty _ (by simp) hfind, hjt]
    simp +decide [tryOps, opsList, List.isPrefixOf, hjv1, heqb]
  | gte =>
    obtain rfl : v2 = [] := hnb (by simp)
    have hcomp : composeFilterExpression ⟨.gte, v1, []⟩ = '>' :: '=' :: v1 := by
      simp [composeFilterExpression, hv1e]
    have hjt : jtrim ('>' :: '=' :: v1) = '>' :: '=' :: v1 := by
      unfold jtrim
      rw [trimLeft_cons_of_not_ws (by decide), trimRight_cons_of_not_ws (by decide),
        trimRight_cons_of_not_ws (by decide), h3]
    have hfind : findSub (jtrim ('>' :: '=' :: v1)) ['.', '.'] = none := by
      apply findSub_eq_none_of_not_within
      rw [hjt, dots_infix_cons (by decide), dots_infix_cons (by decide)]
      exact h4
    rw [hcomp, parse_nonempty _ (by simp) hfind, hjt]
    simp +decide [tryOps, opsList, List.isPrefixOf, hjv1]
  | lt =>
    obtain rfl : v2 = [] := hnb (by simp)
    have hcomp : composeFilterExpression ⟨.lt, v1, []⟩ = '<' :: v1 := by
      simp [composeFilterExpression, hv1e]
    have hjt : jtrim ('<' :: v1) = '<' :: v1 := by
      unfold jtrim
      rw [trimLeft_cons_of_not_ws (by decide), trimRight_cons_of_not_ws (by decide), h3]
    have hfind : findSub (jtrim ('<' :: v1)) ['.', '.'] = none := by
      apply findSub_eq_none_of_not_within
      rw [hjt, dots_infix_cons (by decide)]
      exact h4
    rw [hcomp, parse_nonempty _ (by simp) hfind, hjt]
    simp +decide [tryOps, opsList, List.isPrefixOf, hjv1, heqb]
  | lte =>
    obtain rfl : v2 = [] := hnb (by simp)
    have hcomp : composeFilterExpression ⟨.lte, v1, []⟩ = '<' :: '=' :: v1 := by
      simp [composeFilterExpression, hv1e]
    have hjt : jtrim ('<' :: '=' :: v1) = '<' :: '=' :: v1 := by
      unfold jtrim
      rw [trimLeft_cons_of_not_ws (by decide), trimRight_cons_of_not_ws (by decide),
        trimRight_cons_of_not_ws (by decide), h3]
    have hfind : findSub (jtrim ('<' :: '=' :: v1)) ['.', '.'] = none := by
      apply findSub_eq_none_of_not_within
      rw [hjt, dots_infix_cons (by decide), dots_infix_cons (by decide)]
      exact h4
    rw [hcomp, parse_nonempty _ (by simp) hfind, hjt]
    simp +decide [tryOps, opsList, List.isPrefixOf, hjv1]
  | between =>
    obtain ⟨hv2ne, hv2l, hv2r, hv2d, hdot⟩ := hbet rfl
    have hv2e : v2.isEmpty = false := by
      cases v2 with
      | nil => exact absurd rfl hv2ne
      | cons _ _ => rfl
    have hcomp : composeFilterExpression ⟨.between, v1, v2⟩ =
        v1 ++ '.' :: '.' :: v2 := by
      simp [composeFilterExpression, hv1e, hv2e]
    have hassoc : v1 ++ '.' :: '.' :: v2 = (v1 ++ ['.', '.']) ++ v2 := by simp
    have hjt : jtrim (v1 ++ '.' :: '.' :: v2) = v1 ++ '.' :: '.' :: v2 := by
      unfold jtrim
      rw [trimLeft_append_of_fix h2 h1, hassoc,
        trimRight_append_of_fix hv2r hv2ne, ← hassoc]
    have hfs : findSub (v1 ++ '.' :: '.' :: v2) ['.', '.'] = some v1.length := by
      rw [findSub_eq_some_iff]
      refine ⟨by rw [List.drop_left]; exact ⟨v2, rfl⟩, ?_⟩
      intro j hj hp
      rw [List.drop_append_of_le_length (Nat.le_of_lt hj)] at hp
      cases hd : v1.drop j with
      | nil =>
        rw [List.drop_eq_nil_iff] at hd
        omega
      | cons x xs =>
        rw [hd] at hp
        cases xs with
        | nil =>
          simp only [List.cons_append, List.nil_append] at hp
          rw [List.cons_prefix_cons] at hp
          obtain ⟨hx, -⟩ := hp
          apply hdot
          rw [← hx] at hd
          exact hd ▸ List.drop_suffix j v1
        | cons y ys =>
          simp only [List.cons_append] at hp
          rw [List.cons_prefix_cons] at hp
          obtain ⟨hx, hp2⟩ := hp
          rw [List.cons_prefix_cons] at hp2
          obtain ⟨hy, -⟩ := hp2
          apply h4
          have hpre : ['.', '.'] <+: v1.drop j := by
            rw [hd, ← hx, ← hy]
            exact ⟨ys, rfl⟩
          exact hpre.isInfix.trans (List.drop_suffix j v1).isInfix
    have hne : v1 ++ '.' :: '.' :: v2 ≠ [] := by
      simp [h1]
    rw [hcomp]
    simp only [parseFilterExpression, hjt, hfs]
    rw [if_neg (by simp [List.isEmpty_iff, h1])]
    rw [List.take_left, hassoc, List.drop_left' (by simp), hjv1,
      jtrim_eq_self hv2l hv2r]

/-- C10 amended witness: round trip at the concrete descriptor
`{between, "1", "5"}`. -/
theorem parse_compose_roundtrip_witness :
    parseFilterExpression (composeFilterExpression ⟨.between, ['1'], ['5']⟩)
      = ⟨.between, ['1'], ['5']⟩ :=
  parse_compose_roundtrip ⟨.between, ['1'], ['5']⟩ (by decide) (by decide)
    (by decide) (by decide) (by decide)
    (fun _ => by refine ⟨by decide, by decide, by decide, by decide, by decide⟩)
    (fun h => absurd rfl h)

/-! ## Record values and the nested-path resolver -/

/-- JSON-like record values as manipulated by the table: string, number,
boolean and null scalars, and nested records (objects as ordered key-value
lists).  Numeric literals are modelled at integer precision, exact for the
integer-valued data the table carries. -/
inductive JVal where
  | vstr (s : List Char)
  | vnum (n : Int)
  | vbool (b : Bool)
  | vnull
  | vobj (fields : List (List Char × JVal))

instance : Inhabited JVal := ⟨.vnull⟩

/-- A record: a JS object, i.e. an ordered association list.  Property
access returns the first matching key; a missing key is `undefined`
(`none`). -/
abbrev JRec := List (List Char × JVal)

/-- JS property access `o[k]` on an association list. -/
def jget : List (List Char × JVal) → List Char → Option JVal
  | [], _ => none
  | (k, v) :: rest, key => if k = key then some v else jget rest key

/-- JS truthiness of a possibly-undefined value (`undefined`, `null`,
`false`, `0` and the empty string are falsy). -/
def truthy : Option JVal → Bool
  | none => false
  | some .vnull => false
  | some (.vbool b) => b
  | some (.vnum n) => n != 0
  | some (.vstr s) => !s.isEmpty
  | some (.vobj _) => true

/-- Digit-list value. -/
def digitsVal (ds : List Char) : Nat :=
  ds.foldl (fun acc c => acc * 10 + (c.toNat - '0'.toNat)) 0

/-- A canonical JS array-index property key: `"0"`, or digits without a
leading zero (`"00"`, `"01"`, `"-1"` are not index keys). -/
def parseArrayIndex (k : List Char) : Option Nat :=
  match k with
  | [] => none
  | ['0'] => some 0
  | c :: rest =>
    if c.isDigit && c != '0' && rest.all Char.isDigit then some (digitsVal (c :: rest))
    else none

/-- JS property access on an arbitrary value, restricted to *data*
properties: an object exposes its own keys; a string exposes its own
`length` and canonical character-index keys.  Prototype-inherited
properties (`toString`, `toFixed`, `charAt`, …) are function values and
lie outside the first-order record data model; no theorem in this file
relies on `jindex` at such keys. -/
def jindex : JVal → List Char → Option JVal
  | .vobj fs, k => jget fs k
  | .vstr s, k =>
    if k = ['l', 'e', 'n', 'g', 't', 'h'] then some (.vnum (s.length : Int))
    else
      match parseArrayIndex k with
      | some i => (s[i]?).map fun c => JVal.vstr [c]
      | none => none
  | .vnum _, _ => none
  | .vbool _, _ => none
  | .vnull, _ => none

/-- One step of the `reduce` inside `getNestedValue`
(`current && current[key] !== undefined ? current[key] : undefined`). -/
def resolveStep (cur : Option JVal) (key : List Char) : Option JVal :=
  if truthy cur && (cur.bind (jindex · key)).isSome then cur.bind (jindex · key)
  else none

/-- `getNestedValue` from `DataTable.tsx`: split the path on `.` and walk
the keys with the guarded `reduce` step. -/
def getNestedValue (obj : JVal) (path : List Char) : Option JVal :=
  (jsplitOn '.' path).foldl resolveStep (some obj)

/-- The resolver exactly as §4.1 of the specification words it: walk the
keys, returning absent the moment any intermediate key is missing or the
current value is not a nested record. -/
def resolveSpec : List (List Char) → JVal → Option JVal
  | [], v => some v
  | k :: rest, .vobj fs =>
    match jget fs k with
    | some w => resolveSpec rest w
    | none => none
  | _ :: _, .vstr _ => none
  | _ :: _, .vnum _ => none
  | _ :: _, .vbool _ => none
  | _ :: _, .vnull => none

lemma foldl_resolveStep_none (keys : List (List Char)) :
    keys.foldl resolveStep none = none := by
  induction keys with
  | nil => rfl
  | cons k rest ih =>
    show List.foldl resolveStep (resolveStep none k) rest = none
    have : resolveStep none k = none := by simp [resolveStep, truthy]
    rw [this, ih]

/-- C5 counterexample: resolution does *not* return absent the moment the
current value is not a nested record — a truthy string exposes its own
`length` data property, so `{a: "hi"}` at path `a.length` resolves to `2`
where the specification's record-walk resolver says absent. -/
theorem getNestedValue_string_length_defined :
    getNestedValue (.vobj [(['a'], .vstr ['h', 'i'])])
      ['a', '.', 'l', 'e', 'n', 'g', 't', 'h'] = some (.vnum 2) ∧
    resolveSpec (jsplitOn '.' ['a', '.', 'l', 'e', 'n', 'g', 't', 'h'])
      (.vobj [(['a'], .vstr ['h', 'i'])]) = none :=
  ⟨rfl, rfl⟩

lemma foldl_resolveStep_of_resolveSpec {keys : List (List Char)} {obj v : JVal}
    (h : resolveSpec keys obj = some v) :
    keys.foldl resolveStep (some obj) = some v := by
  induction keys generalizing obj with
  | nil =>
    cases h
    rfl
  | cons k rest ih =>
    show List.foldl resolveStep (resolveStep (some obj) k) rest = some v
    cases obj with
    | vobj fs =>
      cases hg : jget fs k with
      | none => simp [resolveSpec, hg] at h
      | some w =>
        have hstep : resolveStep (some (.vobj fs)) k = some w := by
          simp [resolveStep, truthy, jindex, hg]
        rw [hstep]
        exact ih (by simpa [resolveSpec, hg] using h)
    | vstr s => simp [resolveSpec] at h
    | vnum n => simp [resolveSpec] at h
    | vbool b => simp [resolveSpec] at h
    | vnull => simp [resolveSpec] at h

/-- C5 amended: `getNestedValue` splits the path on `.`, walks the keys,
and is total — the truthiness guard prevents property access on absent,
null and falsy values, so it never throws.  Whenever the specification's
record-walk resolves a value through nested records, the code resolves
the same value (equivalently, a code-side absent means the record-walk
also fails); but the code does not return absent the moment an
intermediate value is not a nested record: a truthy non-record value can
expose its own data properties, e.g. a non-empty string's `length`. -/
theorem getNestedValue_amended :
    (∀ (path : List Char) (obj v : JVal),
      resolveSpec (jsplitOn '.' path) obj = some v →
        getNestedValue obj path = some v) ∧
    (∀ s : List Char, s ≠ [] →
      getNestedValue (.vobj [(['a'], .vstr s)])
        ['a', '.', 'l', 'e', 'n', 'g', 't', 'h'] = some (.vnum (s.length : Int))) := by
  constructor
  · intro path obj v h
    exact foldl_resolveStep_of_resolveSpec h
  · intro s hs
    have hse : s.isEmpty = false := by
      cases s with
      | nil => exact absurd rfl hs
      | cons _ _ => rfl
    have hsplit : jsplitOn '.' ['a', '.', 'l', 'e', 'n', 'g', 't', 'h'] =
        [['a'], ['l', 'e', 'n', 'g', 't', 'h']] := rfl
    unfold getNestedValue
    rw [hsplit]
    have h1 : resolveStep (some (.vobj [(['a'], .vstr s)])) ['a'] =
        some (.vstr s) := by
      simp [resolveStep, truthy, jindex, jget]
    have h2 : resolveStep (some (.vstr s)) ['l', 'e', 'n', 'g', 't', 'h'] =
        some (.vnum (s.length : Int)) := by
      simp [resolveStep, truthy, jindex, hse]
    show List.foldl resolveStep (some (.vobj [(['a'], .vstr s)]))
      [['a'], ['l', 'e', 'n', 'g', 't', 'h']] = _
    rw [List.foldl_cons, h1, List.foldl_cons, h2, List.foldl_nil]

/-- C5 amended witness: a record-walk success is preserved, and `{a: "hi"}`
at `a.length` gives the string's length. -/
theorem getNestedValue_amended_witness :
    getNestedValue (.vobj [(['b'], .vnum 4)]) ['b'] = some (.vnum 4) ∧
    getNestedValue (.vobj [(['a'], .vstr ['h', 'i'])])
      ['a', '.', 'l', 'e', 'n', 'g', 't', 'h']
      = some (.vnum ((['h', 'i'] : List Char).length : Int)) :=
  ⟨getNestedValue_amended.1 ['b'] _ _ rfl,
   getNestedValue_amended.2 ['h', 'i'] (by decide)⟩

/-! ## The client-side filter pipeline (`useDataTable.ts`) -/

/-- Decimal digits of a natural number, JS-style. -/
def natChars (n : Nat) : List Char := Nat.toDigits 10 n

/-- JS `String()` of an (integer) number. -/
def intChars (n : Int) : List Char :=
  if n < 0 then '-' :: natChars n.natAbs else natChars n.natAbs

/-- JS `String(value)` for the modelled value kinds; a nested object
stringifies as `[object Object]`. -/
def jsToString : JVal → List Char
  | .vstr s => s
  | .vnum n => intChars n
  | .vbool true => ['t', 'r', 'u', 'e']
  | .vbool false => ['f', 'a', 'l', 's', 'e']
  | .vnull => ['n', 'u', 'l', 'l']
  | .vobj _ => ['[', 'o', 'b', 'j', 'e', 'c', 't', ' ', 'O', 'b', 'j', 'e', 'c', 't', ']']

/-- JS `String(value)` where the value may be `undefined`
(`String(undefined)` is the text `undefined`). -/
def jsToStringOpt : Option JVal → List Char
  | some v => jsToString v
  | none => ['u', 'n', 'd', 'e', 'f', 'i', 'n', 'e', 'd']

/-- The search predicate of `filteredData`:
`Object.values(item).some(v => String(v).toLowerCase().includes(searchLower))`. -/
def matchesSearchRow (term : List Char) (item : JRec) : Bool :=
  (item.map Prod.snd).any fun v => jcontains (jlower (jsToString v)) (jlower term)

/-- The global-search stage of `filteredData`: skipped for an empty
(falsy) term, otherwise a top-level-values substring filter. -/
def applySearch (term : List Char) (data : List JRec) : List JRec :=
  if term.isEmpty then data
  else data.filter (matchesSearchRow term)

/-- One iteration of the per-column filter loop of `filteredData`:
a falsy (empty) filter value is skipped, otherwise
`String(item[columnKey]).toLowerCase().includes(filterValue.toLowerCase())`. -/
def applyColumnFilter (l : List JRec) (kv : List Char × List Char) : List JRec :=
  if kv.2.isEmpty then l
  else l.filter fun item =>
    jcontains (jlower (jsToStringOpt (jget item kv.1))) (jlower kv.2)

/-- The `Object.entries(filters.columnFilters).forEach` loop. -/
def applyColumnFilters (colFilters : List (List Char × List Char))
    (l : List JRec) : List JRec :=
  colFilters.foldl applyColumnFilter l

/-- `filteredData` from `useDataTable.ts`: global search then the
per-column filters. -/
def filteredData (search : List Char) (colFilters : List (List Char × List Char))
    (data : List JRec) : List JRec :=
  applyColumnFilters colFilters (applySearch search data)

/-- The `filters` request-parameter loop of `fetchFlexibleData`
(`src/lib/api`): entries whose trimmed value is non-empty become
`key:trimmedValue` pairs; all others are omitted from the request. -/
def buildFilterPairs (colFilters : List (List Char × List Char)) : List (List Char) :=
  (colFilters.filter fun p => !(jtrim p.2).isEmpty).map
    fun p => p.1 ++ ':' :: jtrim p.2

mutual

/-- The specification's recursive search reach: the term occurs
(case-insensitively) in the text form of some scalar anywhere in the
value, including inside nested records. -/
def jvalReach (t : List Char) : JVal → Bool
  | .vstr s => jcontains (jlower s) (jlower t)
  | .vnum n => jcontains (jlower (intChars n)) (jlower t)
  | .vbool true => jcontains (jlower ['t', 'r', 'u', 'e']) (jlower t)
  | .vbool false => jcontains (jlower ['f', 'a', 'l', 's', 'e']) (jlower t)
  | .vnull => jcontains (jlower ['n', 'u', 'l', 'l']) (jlower t)
  | .vobj fs => jfieldsReach t fs

/-- Recursive search reach over a field list. -/
def jfieldsReach (t : List Char) : List (List Char × JVal) → Bool
  | [] => false
  | (_, v) :: rest => jvalReach t v || jfieldsReach t rest

end

/-! ## C4: empty / whitespace-only column filters -/

/-- C4 counterexample: a whitespace-only filter string is truthy in JS, so
the client filtering step does *not* skip it — with filter `" "` on
`city`, the record `{city: "Berlin"}` is excluded rather than passed. -/
theorem whitespace_filter_not_skipped :
    applyColumnFilter [[(['c', 'i', 't', 'y'], JVal.vstr ['B', 'e', 'r', 'l', 'i', 'n'])]]
      (['c', 'i', 't', 'y'], [' ']) = [] := rfl

/-- C4 amended: a column whose raw filter expression is the *empty* string
is skipped by the client filtering step (every record passes), and any
entry whose *trimmed* value is empty (so also whitespace-only ones) is
omitted from the outgoing request; but a whitespace-only string is not
skipped client-side — it applies as a substring filter. -/
theorem empty_filter_skipped_amended :
    (∀ (l : List JRec) (k : List Char), applyColumnFilter l (k, []) = l) ∧
    (∀ (k v : List Char) (fs gs : List (List Char × List Char)), jtrim v = [] →
      buildFilterPairs (fs ++ (k, v) :: gs) = buildFilterPairs (fs ++ gs)) := by
  constructor
  · intro l k
    rfl
  · intro k v fs gs hv
    simp [buildFilterPairs, List.filter_append, List.filter_cons, hv]

/-- C4 amended witness at an empty filter and a whitespace-only entry. -/
theorem empty_filter_skipped_amended_witness :
    applyColumnFilter [] (['c'], []) = [] ∧
    buildFilterPairs ([] ++ (['c'], [' ']) :: []) = buildFilterPairs ([] ++ []) :=
  ⟨empty_filter_skipped_amended.1 [] ['c'],
   empty_filter_skipped_amended.2 ['c'] [' '] [] [] (by decide)⟩

/-! ## C6: absent field values under column filters -/

/-- C6: the code keeps a record whose filtered field is absent whenever the
operand is a substring of the text `undefined`, because
`String(item[columnKey])` turns the absent value into the string
`"undefined"` — with filter `fine` on the missing key `city`, the record
`{id: 1}` matches and is kept, contradicting absent-never-matches. -/
theorem absent_field_matches_undefined_text :
    jget [(['i', 'd'], JVal.vnum 1)] ['c', 'i', 't', 'y'] = none ∧
    filteredData [] [(['c', 'i', 't', 'y'], ['f', 'i', 'n', 'e'])]
      [[(['i', 'd'], JVal.vnum 1)]] = [[(['i', 'd'], JVal.vnum 1)]] :=
  ⟨rfl, rfl⟩

/-! ## C7: global search is not recursive -/

/-- C7 counterexample: a scalar `xyz` reachable inside a nested record
(the spec-side recursive reach holds) is not found by the code's search,
which looks only at top-level values and stringifies the nested record as
`[object Object]`. -/
theorem search_not_recursive :
    applySearch ['x', 'y', 'z']
      [[(['a'], JVal.vobj [(['b'], JVal.vstr ['x', 'y', 'z'])])]] = [] ∧
    jfieldsReach ['x', 'y', 'z']
      [(['a'], JVal.vobj [(['b'], JVal.vstr ['x', 'y', 'z'])])] = true := by
  refine ⟨rfl, ?_⟩
  simp +decide [jfieldsReach, jvalReach]

/-- C7 amended: an empty term leaves the data unfiltered; a non-empty term
matches a record iff the case-insensitive JS text form of at least one
*top-level* value — a nested record rendering as `[object Object]`, its
inner scalars not searched — contains the term as a substring. -/
theorem search_top_level_amended :
    (∀ data : List JRec, applySearch [] data = data) ∧
    (∀ (term : List Char) (data : List JRec) (r : JRec), term ≠ [] →
      (r ∈ applySearch term data ↔
        r ∈ data ∧ ∃ v ∈ r.map Prod.snd,
          jcontains (jlower (jsToString v)) (jlower term) = true)) := by
  constructor
  · intro data
    rfl
  · intro term data r hne
    have hte : term.isEmpty = false := by
      cases term with
      | nil => exact absurd rfl hne
      | cons _ _ => rfl
    simp [applySearch, hte, matchesSearchRow, List.mem_filter, List.any_eq_true]

/-- C7 amended witness: the record `{x: "abc"}` is found by the term `b`. -/
theorem search_top_level_amended_witness :
    [(['x'], JVal.vstr ['a', 'b', 'c'])] ∈
      applySearch ['b'] [[(['x'], JVal.vstr ['a', 'b', 'c'])]] :=
  (search_top_level_amended.2 ['b'] _ _ (by decide)).mpr
    ⟨List.mem_cons_self _ _, JVal.vstr ['a', 'b', 'c'], List.mem_cons_self _ _, rfl⟩

/-! ## The client-side sort (`sortedData` in `useDataTable.ts`) -/

/-- JS primitive values, the result of `ToPrimitive` in the abstract
relational comparison. -/
inductive JPrim where
  | pstr (s : List Char)
  | pnum (n : Int)
  | pbool (b : Bool)
  | pnull
  | pundef

/-- `ToPrimitive` with number hint on a possibly-undefined value: scalars
are primitives already; an object falls back to its `toString`,
`[object Object]`. -/
def toPrim : Option JVal → JPrim
  | none => .pundef
  | some (.vstr s) => .pstr s
  | some (.vnum n) => .pnum n
  | some (.vbool b) => .pbool b
  | some .vnull => .pnull
  | some (.vobj _) =>
    .pstr ['[', 'o', 'b', 'j', 'e', 'c', 't', ' ', 'O', 'b', 'j', 'e', 'c', 't', ']']

/-- JS `ToNumber` on a string, restricted to integer literals; anything
else is NaN (`none`).  The empty (or whitespace-only) string is 0. -/
def strToNum (s : List Char) : Option Int :=
  match jtrim s with
  | [] => some 0
  | '-' :: ds =>
    if !ds.isEmpty && ds.all Char.isDigit then some (-(digitsVal ds : Int)) else none
  | '+' :: ds =>
    if !ds.isEmpty && ds.all Char.isDigit then some (digitsVal ds) else none
  | ds =>
    if ds.all Char.isDigit then some (digitsVal ds) else none

/-- JS `ToNumber` on a primitive (`none` is NaN). -/
def toNum : JPrim → Option Int
  | .pnum n => some n
  | .pbool true => some 1
  | .pbool false => some 0
  | .pnull => some 0
  | .pundef => none
  | .pstr s => strToNum s

/-- Numeric comparison with NaN (`none`) always non-less. -/
def numLess : Option Int → Option Int → Bool
  | some m, some n => decide (m < n)
  | some _, none => false
  | none, _ => false

/-- JS lexicographic (code-unit) string order. -/
def lexLess : List Char → List Char → Bool
  | [], [] => false
  | [], _ :: _ => true
  | _ :: _, [] => false
  | a :: as, b :: bs =>
    if a.toNat < b.toNat then true
    else if b.toNat < a.toNat then false
    else lexLess as bs

/-- The JS abstract relational comparison `x < y` on field values: string
comparison when both primitives are strings, numeric comparison (false on
NaN) otherwise. -/
def jsLess (x y : Option JVal) : Bool :=
  match toPrim x, toPrim y with
  | .pstr a, .pstr b => lexLess a b
  | px, py => numLess (toNum px) (toNum py)

/-- Sort direction, `asc` or `desc`. -/
inductive SortDir where
  | asc | desc
deriving DecidableEq, Repr

/-- One entry of `sortConfig`. -/
structure SortConfig where
  key : List Char
  direction : SortDir

/-- The per-key comparison of `sortedData`:
`aValue < bValue → -1`, `aValue > bValue → 1`, otherwise `0`. -/
def keyCmpRaw (key : List Char) (a b : JRec) : Int :=
  let aValue := jget a key
  let bValue := jget b key
  if jsLess aValue bValue then -1
  else if jsLess bValue aValue then 1
  else 0

/-- The full comparator of `sortedData`: walk the sort keys, negate on
`desc`, return the first non-zero comparison, `0` if all keys tie. -/
def jsCompare : List SortConfig → JRec → JRec → Int
  | [], _, _ => 0
  | s :: rest, a, b =>
    let c := keyCmpRaw s.key a b
    if c ≠ 0 then (if s.direction = .desc then -c else c)
    else jsCompare rest a b

/-- Stable insertion used to model `Array.prototype.sort` (specified
stable): an element goes before the first element it does not strictly
follow. -/
def insertJS (cmp : JRec → JRec → Int) (x : JRec) : List JRec → List JRec
  | [] => [x]
  | y :: ys => if cmp x y ≤ 0 then x :: y :: ys else y :: insertJS cmp x ys

/-- Stable sort modelling `[...filteredData].sort(comparator)`. -/
def sortJS (cmp : JRec → JRec → Int) : List JRec → List JRec
  | [] => []
  | x :: xs => insertJS cmp x (sortJS cmp xs)

/-- `sortedData` from `useDataTable.ts`: unchanged when no sort keys are
configured, otherwise the stable sort under `jsCompare`. -/
def sortedData (cfg : List SortConfig) (l : List JRec) : List JRec :=
  if cfg.isEmpty then l else sortJS (jsCompare cfg) l

lemma sublist_insertJS (cmp : JRec → JRec → Int) (x : JRec) (l : List JRec) :
    l <+ insertJS cmp x l := by
  induction l with
  | nil => exact List.nil_sublist _
  | cons y ys ih =>
    rw [insertJS]
    split
    · exact List.sublist_cons_self x (y :: ys)
    · exact ih.cons₂ y

lemma mem_insertJS_self (cmp : JRec → JRec → Int) (x : JRec) (l : List JRec) :
    x ∈ insertJS cmp x l := by
  induction l with
  | nil => exact List.mem_cons_self x []
  | cons y ys ih =>
    rw [insertJS]
    split
    · exact List.mem_cons_self _ _
    · exact List.mem_cons_of_mem y ih

lemma mem_sortJS_of_mem {cmp : JRec → JRec → Int} {y : JRec} {l : List JRec}
    (h : y ∈ l) : y ∈ sortJS cmp l := by
  induction l with
  | nil => simp at h
  | cons a as ih =>
    rw [sortJS]
    rcases List.mem_cons.mp h with rfl | h'
    · exact mem_insertJS_self cmp y (sortJS cmp as)
    · exact (sublist_insertJS cmp a (sortJS cmp as)).mem (ih h')

lemma pair_sublist_insertJS {cmp : JRec → JRec → Int} {x y : JRec} {l : List JRec}
    (hxy : cmp x y ≤ 0) (hy : y ∈ l) : [x, y] <+ insertJS cmp x l := by
  induction l with
  | nil => simp at hy
  | cons z zs ih =>
    rw [insertJS]
    split
    · exact (List.singleton_sublist.mpr hy).cons₂ x
    · next hz =>
      rcases List.mem_cons.mp hy with rfl | hy'
      · exact absurd hxy hz
      · exact (ih hy').cons z

lemma sortJS_pair_stable (cmp : JRec → JRec → Int) {x y : JRec} {l : List JRec}
    (hxy : cmp x y ≤ 0) (h : [x, y] <+ l) : [x, y] <+ sortJS cmp l := by
  induction l with
  | nil => simp at h
  | cons a as ih =>
    rw [sortJS]
    rcases List.sublist_cons_iff.mp h with h' | ⟨r, hr, hrs⟩
    · exact (ih h').trans (sublist_insertJS cmp a (sortJS cmp as))
    · obtain ⟨rfl, rfl⟩ : x = a ∧ r = [y] := by
        cases hr
        exact ⟨rfl, rfl⟩
      exact pair_sublist_insertJS hxy
        (mem_sortJS_of_mem (List.singleton_sublist.mp hrs))

/-- C8: the comparator compares by the first sort key, falls through to
the remaining keys exactly when the current key's comparison is `0` (a
tie), returns `0` iff every configured key ties, and the sort is stable:
two records tied on all sort keys keep their relative input order. -/
theorem sortedData_multikey_stable :
    (∀ (s : SortConfig) (rest : List SortConfig) (a b : JRec),
      jsCompare (s :: rest) a b =
        if keyCmpRaw s.key a b = 0 then jsCompare rest a b
        else if s.direction = .desc then -(keyCmpRaw s.key a b)
          else keyCmpRaw s.key a b) ∧
    (∀ (cfg : List SortConfig) (a b : JRec),
      jsCompare cfg a b = 0 ↔ ∀ s ∈ cfg, keyCmpRaw s.key a b = 0) ∧
    (∀ (cfg : List SortConfig) (l : List JRec) (x y : JRec),
      [x, y] <+ l → jsCompare cfg x y = 0 → [x, y] <+ sortedData cfg l) := by
  refine ⟨?_, ?_, ?_⟩
  · intro s rest a b
    by_cases h : keyCmpRaw s.key a b = 0 <;> simp [jsCompare, h]
  · intro cfg a b
    induction cfg with
    | nil => simp [jsCompare]
    | cons s rest ih =>
      by_cases h : keyCmpRaw s.key a b = 0
      · simp [jsCompare, h, ih]
      · have hz : (if s.direction = SortDir.desc then -keyCmpRaw s.key a b
            else keyCmpRaw s.key a b) ≠ 0 := by
          split
          · intro hx
            exact h (Int.neg_eq_zero.mp hx)
          · exact h
        simp [jsCompare, h, hz, List.forall_mem_cons]
  · intro cfg l x y hsub hc
    unfold sortedData
    split
    · exact hsub
    · exact sortJS_pair_stable _ (le_of_eq hc) hsub

/-- C8 witness: two records tied on the sort key `id` keep their input
order in the sorted output. -/
theorem sortedData_multikey_stable_witness :
    [[(['i', 'd'], JVal.vnum 1), (['x'], JVal.vnum 1)],
     [(['i', 'd'], JVal.vnum 1), (['x'], JVal.vnum 2)]] <+
      sortedData [⟨['i', 'd'], .asc⟩]
        [[(['i', 'd'], JVal.vnum 1), (['x'], JVal.vnum 1)],
         [(['i', 'd'], JVal.vnum 1), (['x'], JVal.vnum 2)]] :=
  sortedData_multikey_stable.2.2 [⟨['i', 'd'], .asc⟩] _ _ _
    (List.Sublist.refl _) rfl

/-! ## C9: absent and incomparable values in the sort -/

lemma jsLess_none_left (v : Option JVal) : jsLess none v = false := by
  cases v with
  | none => rfl
  | some jv => cases jv <;> rfl

lemma numLess_right_none (q : Option Int) : numLess q none = false := by
  cases q <;> rfl

lemma jsLess_none_right (v : Option JVal) : jsLess v none = false := by
  cases v with
  | none => rfl
  | some jv =>
    cases jv with
    | vstr s =>
      show numLess (strToNum s) none = false
      exact numLess_right_none _
    | vnum n => rfl
    | vbool b => cases b <;> rfl
    | vnull => rfl
    | vobj fs =>
      show numLess
        (strToNum ['[', 'o', 'b', 'j', 'e', 'c', 't', ' ', 'O', 'b', 'j', 'e', 'c', 't', ']'])
        none = false
      exact numLess_right_none _

/-- C9 counterexample: under sort key `id`, a record lacking `id` ties
with a record carrying `id = 5` (comparison 0), and the stable sort
leaves it *first* in the output for both `asc` and `desc` — it does not
settle at the end. -/
theorem absent_sorts_first_not_last :
    jget [(['x'], JVal.vnum 7)] ['i', 'd'] = none ∧
    keyCmpRaw ['i', 'd'] [(['x'], JVal.vnum 7)] [(['i', 'd'], JVal.vnum 5)] = 0 ∧
    sortedData [⟨['i', 'd'], .asc⟩]
      [[(['x'], JVal.vnum 7)], [(['i', 'd'], JVal.vnum 5)]] =
      [[(['x'], JVal.vnum 7)], [(['i', 'd'], JVal.vnum 5)]] ∧
    sortedData [⟨['i', 'd'], .desc⟩]
      [[(['x'], JVal.vnum 7)], [(['i', 'd'], JVal.vnum 5)]] =
      [[(['x'], JVal.vnum 7)], [(['i', 'd'], JVal.vnum 5)]] :=
  ⟨rfl, rfl, rfl, rfl⟩

/-- C9 amended: an absent sort-key value compares as a *tie* with every
value (both JS `<` tests are false, via NaN), so the comparator returns
`0` at that key and falls through to later keys; on a full tie the stable
sort preserves the relative input order — absent values do not settle at
the end.  The direction only negates a non-zero per-key comparison. -/
theorem absent_ties_in_sort :
    (∀ v : Option JVal, jsLess none v = false ∧ jsLess v none = false) ∧
    (∀ (key : List Char) (a b : JRec),
      jget a key = none ∨ jget b key = none → keyCmpRaw key a b = 0) ∧
    (∀ (key : List Char) (d : SortDir) (l : List JRec) (a b : JRec),
      [a, b] <+ l → jget a key = none → [a, b] <+ sortedData [⟨key, d⟩] l) ∧
    (∀ (s : SortConfig) (a b : JRec), keyCmpRaw s.key a b ≠ 0 →
      jsCompare [s] a b =
        if s.direction = .desc then -(keyCmpRaw s.key a b)
        else keyCmpRaw s.key a b) := by
  have hcmp : ∀ (key : List Char) (a b : JRec),
      jget a key = none ∨ jget b key = none → keyCmpRaw key a b = 0 := by
    intro key a b h
    rcases h with h | h <;>
      simp [keyCmpRaw, h, jsLess_none_left, jsLess_none_right]
  refine ⟨fun v => ⟨jsLess_none_left v, jsLess_none_right v⟩, hcmp, ?_, ?_⟩
  · intro key d l a b hsub ha
    have hc : jsCompare [⟨key, d⟩] a b = 0 := by
      simp [jsCompare, hcmp key a b (Or.inl ha)]
    unfold sortedData
    rw [if_neg (by simp)]
    exact sortJS_pair_stable _ (le_of_eq hc) hsub
  · intro s a b h
    simp [jsCompare, h]

/-- C9 amended witness: concrete absent-keyed pair keeps input order. -/
theorem absent_ties_in_sort_witness :
    [[(['x'], JVal.vnum 7)], [(['i', 'd'], JVal.vnum 5)]] <+
      sortedData [⟨['i', 'd'], .asc⟩]
        [[(['x'], JVal.vnum 7)], [(['i', 'd'], JVal.vnum 5)]] :=
  absent_ties_in_sort.2.2.1 ['i', 'd'] .asc _ _ _ (List.Sublist.refl _) rfl

end DataTable
